import Mathlib

/-!
# Nyx core: shallow embedding and verification

A shallow embedding of the Nyx DAG-ledger core (nyx-core, nyx-network,
nyx-node) translated from the Rust source:

* `src/nyx-core/src/transaction.rs` — `Transaction`, `validate_structure`
* `src/nyx-core/src/storage.rs` — `MemoryStorage`
* `src/nyx-core/src/dag.rs` — `DagProcessor`
* `src/nyx-core/src/tip_selection.rs` — `TipSelector`
* `src/nyx-network/src/gossip.rs` — `GossipEngine`
* `src/nyx-node/src/mempool.rs` — `Mempool`

Modelling conventions:

* Hashes are `Nat`.  The BLAKE3 content hash `Transaction::id()` is an
  opaque collaborator of the core, so it is a parameter `txId` of every
  operation that calls it.
* `f64` scores are modelled exactly as rationals (`ℚ`); the decay factor
  0.9 and the threshold 100.0 are exact.
* In-memory maps (`HashMap`) become functions `Hash → Option _`; hash
  sets (`HashSet`) become `Finset`; map lookups that default on a
  missing key (`unwrap_or`) become `Option.getD`.
* The Rust methods mutate `&self` behind locks; lock poisoning is the
  only failure of the lock-based plumbing and is not modelled.  Each
  method becomes a pure state-passing function; fallible methods return
  the possibly-changed state next to an `Except` result, so that the
  state an erroring call leaves behind is visible.
* `current_timestamp()` (wall clock) becomes an explicit `now`
  parameter.
-/

namespace Nyx

abbrev Hash := Nat
abbrev Byte := Nat

/-- Pointwise map update, the effect of `HashMap::insert`. -/
def upd {α : Type} (f : Hash → α) (k : Hash) (v : α) : Hash → α :=
  fun h => if h = k then v else f h

/-- `nyx_crypto::ring::RingSignature` (src/nyx-crypto/src/ring.rs). -/
structure RingSignature where
  ringMembers : List (List Byte)
  signature : List Byte
  keyImage : List Byte
deriving DecidableEq, Repr

/-- `RingSignature::ring_size` returns `ring_members.len()`. -/
def RingSignature.ringSize (rs : RingSignature) : Nat :=
  rs.ringMembers.length

/-- `nyx_crypto::ring::validate_key_image`: a key image is rejected
exactly when every byte is zero (returns `Ok(())` otherwise).  We keep
the boolean sense "true = valid". -/
def validateKeyImage (ki : List Byte) : Bool :=
  !(ki.all (fun b => b = 0))

/-- `TxInput` (src/nyx-core/src/transaction.rs). -/
structure TxInput where
  prevTx : Hash
  index : Nat
  keyImage : List Byte
  ringIndices : List Nat
deriving DecidableEq, Repr

/-- `TxOutput` (src/nyx-core/src/transaction.rs). -/
structure TxOutput where
  stealthAddress : List Byte
  amountCommitment : List Byte
  rangeProof : List Byte
  ephemeralPubkey : List Byte
deriving DecidableEq, Repr

/-- `Transaction` (src/nyx-core/src/transaction.rs).  `references` holds
the two parent hashes `[parent1, parent2]`. -/
structure Transaction where
  version : Nat
  inputs : List TxInput
  outputs : List TxOutput
  ringSignature : RingSignature
  txKey : List Byte
  references : Hash × Hash
  timestamp : Nat
  extra : List Byte
deriving DecidableEq, Repr

/-- `Transaction::validate_structure`, with the wall clock passed in as
`now` (the Rust code samples `current_timestamp()` internally).  The
checks and their early-return order follow the source:
inputs/outputs non-empty, `references[0] ≠ references[1]`, timestamp at
most two hours (7200 s) in the future, ring size at least 2, and every
input key image valid. -/
def Transaction.validateStructure (tx : Transaction) (now : Nat) : Bool :=
  if tx.inputs.isEmpty || tx.outputs.isEmpty then false
  else if tx.references.1 = tx.references.2 then false
  else if decide (now + 2 * 60 * 60 < tx.timestamp) then false
  else if tx.ringSignature.ringSize < 2 then false
  else tx.inputs.all (fun i => validateKeyImage i.keyImage)

/-- The error kinds of `nyx_core::errors::NyxError` that the embedded
operations produce.  The `String` payloads of the Rust enum carry no
information the claims depend on and are dropped. -/
inductive NyxError where
  | InvalidTransaction
  | InvalidParent
  | StorageError
  | TransactionNotFound
  | TipSelectionError
  | DagError
deriving DecidableEq, Repr

/-- `MemoryStorage` (src/nyx-core/src/storage.rs): the transaction map
and the confirmed-flag map. -/
structure MemoryStorage where
  transactions : Hash → Option Transaction
  confirmed : Hash → Bool

/-- `MemoryStorage::new`. -/
def MemoryStorage.new : MemoryStorage :=
  { transactions := fun _ => none, confirmed := fun _ => false }

/-- `MemoryStorage::store_transaction`: fails with a storage error when
a transaction with the same hash is already present, otherwise inserts
it and returns the hash. -/
def MemoryStorage.storeTransaction (s : MemoryStorage) (txId : Transaction → Hash)
    (tx : Transaction) : Except NyxError (Hash × MemoryStorage) :=
  let tid := txId tx
  if (s.transactions tid).isSome then
    Except.error NyxError.StorageError
  else
    Except.ok (tid, { s with transactions := upd s.transactions tid (some tx) })

/-- `MemoryStorage::get_transaction`. -/
def MemoryStorage.getTransaction (s : MemoryStorage) (h : Hash) :
    Except NyxError Transaction :=
  match s.transactions h with
  | some tx => Except.ok tx
  | none => Except.error NyxError.TransactionNotFound

/-- `MemoryStorage::has_transaction`. -/
def MemoryStorage.hasTransaction (s : MemoryStorage) (h : Hash) : Bool :=
  (s.transactions h).isSome

/-- `MemoryStorage::mark_confirmed` (always succeeds). -/
def MemoryStorage.markConfirmed (s : MemoryStorage) (h : Hash) : MemoryStorage :=
  { s with confirmed := upd s.confirmed h true }

/-- `MemoryStorage::is_confirmed` (`unwrap_or(&false)`). -/
def MemoryStorage.isConfirmed (s : MemoryStorage) (h : Hash) : Bool :=
  s.confirmed h

/-- `TxState` (src/nyx-core/src/dag.rs). -/
inductive TxState where
  | Pending
  | Confirmed
  | Finalized
  | Conflicted
deriving DecidableEq, Repr

/-- `CONFIRMATION_THRESHOLD = 100.0` (src/nyx-core/src/lib.rs). -/
def CONFIRMATION_THRESHOLD : ℚ := 100

/-- `SCORE_DECAY_FACTOR = 0.9` (src/nyx-core/src/lib.rs). -/
def SCORE_DECAY_FACTOR : ℚ := 9 / 10

/-- `DagProcessor` (src/nyx-core/src/dag.rs): storage plus the four
engine-owned indices.  A missing `children` entry and the empty set are
indistinguishable in the source (`unwrap_or_default`), so the children
map is total. -/
structure DagProcessor where
  storage : MemoryStorage
  scores : Hash → Option ℚ
  states : Hash → Option TxState
  children : Hash → Finset Hash
  tips : Finset Hash

/-- `DagProcessor::new` on fresh storage. -/
def DagProcessor.empty : DagProcessor :=
  { storage := MemoryStorage.new
    scores := fun _ => none
    states := fun _ => none
    children := fun _ => ∅
    tips := ∅ }

/-- `DagProcessor::get_score` (`unwrap_or(&0.0)`). -/
def DagProcessor.getScore (d : DagProcessor) (h : Hash) : ℚ :=
  (d.scores h).getD 0

/-- `DagProcessor::get_state` (`unwrap_or(&TxState::Pending)`). -/
def DagProcessor.getState (d : DagProcessor) (h : Hash) : TxState :=
  (d.states h).getD TxState.Pending

/-- `DagProcessor::update_children`: insert the new hash into the
children set of each parent, in array order. -/
def DagProcessor.updateChildren (d : DagProcessor) (txHash : Hash)
    (parents : Hash × Hash) : DagProcessor :=
  let c1 := upd d.children parents.1 (insert txHash (d.children parents.1))
  let c2 := upd c1 parents.2 (insert txHash (c1 parents.2))
  { d with children := c2 }

/-- `DagProcessor::update_tips`: remove both parents from the tip set,
then insert the new transaction. -/
def DagProcessor.updateTips (d : DagProcessor) (txHash : Hash)
    (parents : Hash × Hash) : DagProcessor :=
  { d with tips := insert txHash ((d.tips.erase parents.1).erase parents.2) }

/-- `DagProcessor::update_score_recursive` for one hash: recompute
`1 + Σ_{c ∈ children(h)} score(c) × DECAY` from the current maps, store
it, and fire the Pending → Confirmed transition when the threshold is
reached.  (Despite its name the source function never calls itself: it
touches exactly the given hash.) -/
def DagProcessor.updateScoreRecursive (d : DagProcessor) (h : Hash) : DagProcessor :=
  let score : ℚ := 1 + Finset.sum (d.children h) (fun c => d.getScore c * SCORE_DECAY_FACTOR)
  let states1 :=
    if CONFIRMATION_THRESHOLD ≤ score ∧ d.states h = some TxState.Pending then
      upd d.states h (some TxState.Confirmed)
    else d.states
  { d with scores := upd d.scores h (some score), states := states1 }

/-- `DagProcessor::update_scores`: look the new transaction up in
storage and re-score its two parents, in array order. -/
def DagProcessor.updateScores (d : DagProcessor) (txHash : Hash) :
    Except NyxError DagProcessor :=
  match d.storage.getTransaction txHash with
  | Except.error e => Except.error e
  | Except.ok tx =>
      Except.ok ((d.updateScoreRecursive tx.references.1).updateScoreRecursive tx.references.2)

/-- `DagProcessor::add_transaction`.  Returns the result together with
the engine state the call leaves behind, mirroring where the source
mutates: the three validation failures happen before any write, and the
store failure happens before the storage insert. -/
def DagProcessor.addTransaction (d : DagProcessor) (txId : Transaction → Hash)
    (now : Nat) (tx : Transaction) : Except NyxError Hash × DagProcessor :=
  if !(tx.validateStructure now) then
    (Except.error NyxError.InvalidTransaction, d)
  else if !(d.storage.hasTransaction tx.references.1) then
    (Except.error NyxError.InvalidParent, d)
  else if !(d.storage.hasTransaction tx.references.2) then
    (Except.error NyxError.InvalidParent, d)
  else
    match d.storage.storeTransaction txId tx with
    | Except.error e => (Except.error e, d)
    | Except.ok (txHash, st1) =>
        let d1 : DagProcessor :=
          { d with storage := st1
                   scores := upd d.scores txHash (some 1)
                   states := upd d.states txHash (some TxState.Pending) }
        let d2 := d1.updateChildren txHash tx.references
        let d3 := d2.updateTips txHash tx.references
        match d3.updateScores txHash with
        | Except.error e => (Except.error e, d3)
        | Except.ok d4 => (Except.ok txHash, d4)

/-- `DagProcessor::finalize_transaction`: set the state to Finalized
and mark confirmed in storage (the source only fails on a poisoned
lock). -/
def DagProcessor.finalizeTransaction (d : DagProcessor) (h : Hash) : DagProcessor :=
  { d with states := upd d.states h (some TxState.Finalized)
           storage := d.storage.markConfirmed h }

/-! ## Engine operation sequences

The operations a client can drive the engine and its storage with:
admission, finalization, and the documented genesis bootstrap path of
storing a transaction directly in `MemoryStorage` (dag.rs tests and
spec §4.2 step 2).  `runOps` folds a list of operations from the empty
engine and also returns the set of hashes admitted through
`add_transaction` (ghost instrumentation, not engine state). -/

inductive DagOp where
  | add (now : Nat) (tx : Transaction)
  | finalize (h : Hash)
  | storeDirect (tx : Transaction)

/-- One engine step with the ghost admitted set. -/
def stepOp (txId : Transaction → Hash) (p : DagProcessor × Finset Hash)
    (op : DagOp) : DagProcessor × Finset Hash :=
  match op with
  | DagOp.add now tx =>
      match p.1.addTransaction txId now tx with
      | (Except.ok h, d1) => (d1, insert h p.2)
      | (Except.error _, d1) => (d1, p.2)
  | DagOp.finalize h => (p.1.finalizeTransaction h, p.2)
  | DagOp.storeDirect tx =>
      match p.1.storage.storeTransaction txId tx with
      | Except.error _ => p
      | Except.ok (_, st1) => ({ p.1 with storage := st1 }, p.2)

/-- Run a sequence of engine operations from the empty engine. -/
def runOps (txId : Transaction → Hash) (ops : List DagOp) :
    DagProcessor × Finset Hash :=
  ops.foldl (stepOp txId) (DagProcessor.empty, ∅)

/-! ## Tip selection (src/nyx-core/src/tip_selection.rs)

`select_single_tip` computes `exp(score · α)` weights over `f64` and
draws a uniform sample; for every outcome of the draw it returns
`tips[i]` for the first index whose cumulative probability covers the
sample, or the last element as the floating-point fallback.  The draw
and the weight arithmetic are abstracted into an oracle: each call
consumes one `Nat` from `draws`, naming the index the sample lands on
(indices ≥ `tips.length` name the fallback, i.e. the last element).
Which index has which probability is not modelled; every behaviour of
the source corresponds to some oracle, and vice versa. -/

/-- The tip `select_single_tip` returns on a non-empty tip list when
the draw lands on index `i` (single-element lists short-circuit to the
only tip; out-of-range lands on the fallback last element). -/
def tipAt (tips : List Hash) (i : Nat) : Hash :=
  if tips.length = 1 then tips.getD 0 0
  else tips.getD (min i (tips.length - 1)) 0

/-- `TipSelector::select_single_tip` (empty-list failure included). -/
def selectSingleTip (tips : List Hash) (i : Nat) : Except NyxError Hash :=
  if tips.isEmpty then Except.error NyxError.TipSelectionError
  else Except.ok (tipAt tips i)

/-- The retry loop of `select_tips`: while `tip2 = tip1` and fewer than
10 attempts were made, redraw.  `fuel` is `10 - attempts`, so the source
loop guard `attempts < 10` is `fuel > 0`; draw `k` is the next unused
oracle index. -/
def secondTipLoop (tips : List Hash) (draws : Nat → Nat) (t1 : Hash) :
    Nat → Nat → Hash → Hash
  | 0, _, t2 => t2
  | fuel + 1, k, t2 =>
      if t2 = t1 then secondTipLoop tips draws t1 fuel (k + 1) (tipAt tips (draws k))
      else t2

/-- `TipSelector::select_tips` over the oracle `draws`: fail on an
empty tip list, return the only tip twice on a singleton, otherwise
draw two tips, retry the second up to 10 times while it equals the
first, then deterministically pick any other tip. -/
def selectTips (draws : Nat → Nat) (tips : List Hash) :
    Except NyxError (Hash × Hash) :=
  if tips.isEmpty then Except.error NyxError.TipSelectionError
  else if tips.length = 1 then Except.ok (tips.getD 0 0, tips.getD 0 0)
  else
    let t1 := tipAt tips (draws 0)
    let t2 := secondTipLoop tips draws t1 10 2 (tipAt tips (draws 1))
    if t2 = t1 then
      match tips.find? (fun t => t ≠ t1) with
      | some t => Except.ok (t1, t)
      | none => Except.error NyxError.TipSelectionError
    else Except.ok (t1, t2)

/-! ## Gossip engine (src/nyx-network/src/gossip.rs)

`MessageId` is the 32-byte content hash, modelled as `Nat`; the payload
of a `Message` is opaque to the dedup logic.  `TcpStream` handles are
opaque, so the peer-stream registry keeps only the registered peer ids.
I/O outcomes are oracles: `evict` names which entries the arbitrary
iteration order of `seen.iter().take(1000)` removes, and `sendOk`
whether the framed send to a given peer succeeds.  (A `try_clone`
failure aborts the remaining sends of a broadcast; the message id is
marked seen before any I/O either way, which is all the deduplication
properties use.) -/

abbrev MessageId := Nat
abbrev PeerId := Nat

/-- `MAX_SEEN_MESSAGES = 10000` (src/nyx-network/src/lib.rs). -/
def MAX_SEEN_MESSAGES : Nat := 10000

/-- A network message: content id plus opaque payload. -/
structure Message where
  id : MessageId
  payload : Nat
deriving DecidableEq, Repr

/-- `PeerState` (src/nyx-network/src/peer.rs). -/
inductive PeerState where
  | Connecting
  | Connected
  | Disconnected
  | Banned
deriving DecidableEq, Repr

/-- A peer session, reduced to what broadcast consults. -/
structure Peer where
  id : PeerId
  state : PeerState
deriving DecidableEq, Repr

/-- `Peer::is_connected`. -/
def Peer.isConnected (p : Peer) : Bool :=
  p.state = PeerState.Connected

/-- `GossipEngine` state: the seen set and the peer-stream registry. -/
structure GossipEngine where
  seenMessages : Finset MessageId
  peerStreams : Finset PeerId

/-- `GossipEngine::new`. -/
def GossipEngine.new : GossipEngine :=
  { seenMessages := ∅, peerStreams := ∅ }

/-- `GossipEngine::has_seen`. -/
def GossipEngine.hasSeen (g : GossipEngine) (mid : MessageId) : Bool :=
  mid ∈ g.seenMessages

/-- `GossipEngine::mark_seen`: when the cache holds at least
`MAX_SEEN_MESSAGES` ids, drop the 1000 entries the iteration order
yields first (the oracle `evict`), then insert. -/
def GossipEngine.markSeen (g : GossipEngine)
    (evict : Finset MessageId → List MessageId) (mid : MessageId) : GossipEngine :=
  let seen1 :=
    if MAX_SEEN_MESSAGES ≤ g.seenMessages.card then
      (evict g.seenMessages).foldl Finset.erase g.seenMessages
    else g.seenMessages
  { g with seenMessages := insert mid seen1 }

/-- `GossipEngine::broadcast`: return 0 at once when the id was seen;
otherwise mark it seen and send to every Connected peer with a
registered stream, counting successful sends.  The result is the count
together with the ids of the peers actually sent to and the new engine
state. -/
def GossipEngine.broadcast (g : GossipEngine)
    (evict : Finset MessageId → List MessageId) (sendOk : PeerId → Bool)
    (msg : Message) (peers : List Peer) :
    (Nat × List PeerId) × GossipEngine :=
  if g.hasSeen msg.id then ((0, []), g)
  else
    let g1 := g.markSeen evict msg.id
    let sent := ((peers.filter (fun p => p.isConnected && decide (p.id ∈ g.peerStreams))).filter
      (fun p => sendOk p.id)).map (fun p => p.id)
    ((sent.length, sent), g1)

/-! ## Mempool (src/nyx-node/src/mempool.rs)

The pending map is keyed by `tx.id()`; the map is modelled as an
association list with distinct keys so that `size()` (`HashMap::len`)
is observable.  The only error is `NodeError::MempoolError` ("Mempool
is full"). -/

inductive NodeError where
  | MempoolError
deriving DecidableEq, Repr

/-- `Mempool` state. -/
structure Mempool where
  transactions : List (Hash × Transaction)
  maxSize : Nat
deriving Repr

/-- `Mempool::new`. -/
def Mempool.new (maxSize : Nat) : Mempool :=
  { transactions := [], maxSize := maxSize }

/-- `Mempool::size` (`HashMap::len`). -/
def Mempool.size (m : Mempool) : Nat :=
  m.transactions.length

/-- `HashMap::contains_key` on the pending map. -/
def Mempool.containsKey (m : Mempool) (h : Hash) : Bool :=
  m.transactions.any (fun kv => kv.1 = h)

/-- `Mempool::add_transaction`: reject when the pool is full (checked
FIRST, before the duplicate check), return the hash unchanged when the
transaction is already present, otherwise insert. -/
def Mempool.addTransaction (m : Mempool) (txId : Transaction → Hash)
    (tx : Transaction) : Except NodeError Hash × Mempool :=
  let tid := txId tx
  if m.maxSize ≤ m.size then
    (Except.error NodeError.MempoolError, m)
  else if m.containsKey tid then
    (Except.ok tid, m)
  else
    (Except.ok tid, { m with transactions := (tid, tx) :: m.transactions })

/-! ## Concrete test vectors

A computable stand-in for the opaque BLAKE3 content id (injective on
the vectors used: they have pairwise distinct timestamps), and a family
of well-formed transactions. -/

/-- Content id for concrete runs: the timestamp field (the test vectors
below have pairwise distinct timestamps). -/
def cTxId : Transaction → Hash := fun tx => tx.timestamp

/-- A structurally valid transaction: one input with a non-zero key
image, one output, a 2-member ring, parents `p1` and `p2`, timestamp
`ts`. -/
def mkTx (ts : Nat) (p1 p2 : Hash) : Transaction :=
  { version := 1
    inputs := [{ prevTx := 0, index := 0, keyImage := [1], ringIndices := [] }]
    outputs := [{ stealthAddress := [], amountCommitment := [], rangeProof := [],
                  ephemeralPubkey := [] }]
    ringSignature := { ringMembers := [[0], [1]], signature := [], keyImage := [1] }
    txKey := []
    references := (p1, p2)
    timestamp := ts
    extra := [] }

/-- A structurally invalid transaction (no inputs). -/
def badTx : Transaction :=
  { mkTx 3 1 2 with inputs := [] }

/-- The engine state midway through a successful `add_transaction`:
the transaction stored, score 1 and state Pending initialized, children
and tips updated — everything before the parent re-scoring. -/
def addMid (d : DagProcessor) (txId : Transaction → Hash) (tx : Transaction) :
    DagProcessor :=
  let txHash := txId tx
  let st1 : MemoryStorage :=
    { d.storage with transactions := upd d.storage.transactions txHash (some tx) }
  let d1 : DagProcessor :=
    { d with storage := st1
             scores := upd d.scores txHash (some 1)
             states := upd d.states txHash (some TxState.Pending) }
  (d1.updateChildren txHash tx.references).updateTips txHash tx.references

/-- The DAG engine state `add_transaction` leaves behind on its success
path: `addMid`, then the two parents re-scored in order. -/
def addResult (d : DagProcessor) (txId : Transaction → Hash) (tx : Transaction) :
    DagProcessor :=
  ((addMid d txId tx).updateScoreRecursive tx.references.1).updateScoreRecursive
    tx.references.2

/-! Scenario for the score-staleness analysis: two genesis transactions
stored directly, then three admissions `A(1,2)`, `B(3,2)`, `C(4,2)`.
After `C` is admitted only its parents 4 and 2 are re-scored, so the
stored score of the admitted node 3 (whose only child 4 just changed
score) goes stale. -/

def gTx1 : Transaction := mkTx 1 0 0
def gTx2 : Transaction := mkTx 2 0 0
def aTx : Transaction := mkTx 3 1 2
def bTx : Transaction := mkTx 4 3 2
def cTx : Transaction := mkTx 5 4 2

def opsScore : List DagOp :=
  [DagOp.storeDirect gTx1, DagOp.storeDirect gTx2,
   DagOp.add 100 aTx, DagOp.add 100 bTx, DagOp.add 100 cTx]

/-- Intermediate engine states of `opsScore`, one per prefix. -/
def sc0 : DagProcessor × Finset Hash := (DagProcessor.empty, ∅)
def sc1 : DagProcessor × Finset Hash := stepOp cTxId sc0 (DagOp.storeDirect gTx1)
def sc2 : DagProcessor × Finset Hash := stepOp cTxId sc1 (DagOp.storeDirect gTx2)
def sc3 : DagProcessor × Finset Hash := stepOp cTxId sc2 (DagOp.add 100 aTx)
def sc4 : DagProcessor × Finset Hash := stepOp cTxId sc3 (DagOp.add 100 bTx)
def sc5 : DagProcessor × Finset Hash := stepOp cTxId sc4 (DagOp.add 100 cTx)

/-! Scenario for finality: hash 3 is finalized before any transaction
with that id exists, then the two genesis transactions are stored and
the transaction whose id is 3 is admitted. -/

def opsFinPre : List DagOp := [DagOp.finalize 3]
def opsFin : List DagOp :=
  opsFinPre ++ [DagOp.storeDirect gTx1, DagOp.storeDirect gTx2, DagOp.add 100 aTx]

/-- Intermediate engine states of `opsFin`, one per prefix. -/
def tf0 : DagProcessor × Finset Hash := (DagProcessor.empty, ∅)
def tf1 : DagProcessor × Finset Hash := stepOp cTxId tf0 (DagOp.finalize 3)
def tf2 : DagProcessor × Finset Hash := stepOp cTxId tf1 (DagOp.storeDirect gTx1)
def tf3 : DagProcessor × Finset Hash := stepOp cTxId tf2 (DagOp.storeDirect gTx2)
def tf4 : DagProcessor × Finset Hash := stepOp cTxId tf3 (DagOp.add 100 aTx)

/-- Invariant tying the tip set to the ghost admitted set: a hash is a
tip exactly when it was admitted through the DAG and has no children;
admitted hashes are stored; and any hash with a child is stored. -/
def TipsInv (p : DagProcessor × Finset Hash) : Prop :=
  (∀ h, h ∈ p.1.tips ↔ (h ∈ p.2 ∧ p.1.children h = ∅)) ∧
  (∀ h, h ∈ p.2 → (p.1.storage.transactions h).isSome = true) ∧
  (∀ q h, h ∈ p.1.children q → (p.1.storage.transactions q).isSome = true)

/-- A hash is durably finalized when its state entry is Finalized and
its transaction is present in storage. -/
def FinalizedStored (p : DagProcessor × Finset Hash) (h : Hash) : Prop :=
  p.1.states h = some TxState.Finalized ∧ p.1.storage.hasTransaction h = true

/-- No state entry is Conflicted. -/
def NoConflicted (p : DagProcessor × Finset Hash) : Prop :=
  ∀ h, p.1.states h ≠ some TxState.Conflicted

/-! ## Basic lemmas about storage and the admission path -/

theorem storeTransaction_spec (s : MemoryStorage) (txId : Transaction → Hash)
    (tx : Transaction) :
    ((s.transactions (txId tx)).isSome = true ∧
      s.storeTransaction txId tx = Except.error NyxError.StorageError) ∨
    (s.transactions (txId tx) = none ∧
      s.storeTransaction txId tx =
        Except.ok (txId tx,
          { s with transactions := upd s.transactions (txId tx) (some tx) })) := by
  unfold MemoryStorage.storeTransaction
  cases hmem : s.transactions (txId tx) with
  | none => right; simp [hmem]
  | some t => left; simp [hmem]

theorem updateScoreRecursive_children (d : DagProcessor) (h : Hash) :
    (d.updateScoreRecursive h).children = d.children := rfl

theorem updateScoreRecursive_tips (d : DagProcessor) (h : Hash) :
    (d.updateScoreRecursive h).tips = d.tips := rfl

theorem updateScoreRecursive_storage (d : DagProcessor) (h : Hash) :
    (d.updateScoreRecursive h).storage = d.storage := rfl

/-- Re-scoring changes a state entry only from `some Pending` to
`some Confirmed`: any entry not equal to `some Pending` is untouched. -/
theorem updateScoreRecursive_states_of_ne (d : DagProcessor) (p h : Hash)
    (hne : d.states h ≠ some TxState.Pending) :
    (d.updateScoreRecursive p).states h = d.states h := by
  unfold DagProcessor.updateScoreRecursive
  by_cases hc : p = h
  · subst hc
    simp only []
    split
    · rename_i hcond
      exact absurd hcond.2 hne
    · rfl
  · simp only []
    split
    · simp only [upd]
      rw [if_neg (fun hh : h = p => hc hh.symm)]
    · rfl

/-- When all four admission conditions hold, `add_transaction` returns
the new hash and the `addResult` state. -/
theorem addTransaction_ok_eq (d : DagProcessor) (txId : Transaction → Hash)
    (now : Nat) (tx : Transaction)
    (hv : tx.validateStructure now = true)
    (hp1 : d.storage.hasTransaction tx.references.1 = true)
    (hp2 : d.storage.hasTransaction tx.references.2 = true)
    (hfresh : d.storage.transactions (txId tx) = none) :
    d.addTransaction txId now tx = (Except.ok (txId tx), addResult d txId tx) := by
  unfold DagProcessor.addTransaction
  rcases storeTransaction_spec d.storage txId tx with ⟨hmem, _⟩ | ⟨_, hst⟩
  · rw [hfresh] at hmem
    exact absurd hmem (by simp)
  · simp only [hv, hp1, hp2, Bool.not_true, Bool.false_eq_true, if_false, hst]
    have hget : ({ d.storage with
        transactions := upd d.storage.transactions (txId tx) (some tx)
        } : MemoryStorage).getTransaction (txId tx) = Except.ok tx := by
      simp [MemoryStorage.getTransaction, upd]
    simp only [DagProcessor.updateScores, DagProcessor.updateChildren,
      DagProcessor.updateTips, hget]
    rfl

/-- Full case analysis of `add_transaction`: it either fails and
returns the engine unchanged, or all four admission conditions hold and
it returns the new hash together with the `addResult` state. -/
theorem addTransaction_spec (d : DagProcessor) (txId : Transaction → Hash)
    (now : Nat) (tx : Transaction) :
    (∃ e, d.addTransaction txId now tx = (Except.error e, d)) ∨
    (tx.validateStructure now = true ∧
      d.storage.hasTransaction tx.references.1 = true ∧
      d.storage.hasTransaction tx.references.2 = true ∧
      d.storage.transactions (txId tx) = none ∧
      d.addTransaction txId now tx = (Except.ok (txId tx), addResult d txId tx)) := by
  by_cases hv : tx.validateStructure now = true
  · by_cases hp1 : d.storage.hasTransaction tx.references.1 = true
    · by_cases hp2 : d.storage.hasTransaction tx.references.2 = true
      · rcases storeTransaction_spec d.storage txId tx with ⟨hmem, hst⟩ | ⟨hmem, hst⟩
        · left
          refine ⟨NyxError.StorageError, ?_⟩
          unfold DagProcessor.addTransaction
          simp [hv, hp1, hp2, hst]
        · right
          exact ⟨hv, hp1, hp2, hmem, addTransaction_ok_eq d txId now tx hv hp1 hp2 hmem⟩
      · left
        refine ⟨NyxError.InvalidParent, ?_⟩
        unfold DagProcessor.addTransaction
        simp [hv, hp1, hp2]
    · left
      refine ⟨NyxError.InvalidParent, ?_⟩
      unfold DagProcessor.addTransaction
      simp [hv, hp1]
  · left
    refine ⟨NyxError.InvalidTransaction, ?_⟩
    unfold DagProcessor.addTransaction
    simp [hv]

/-- `add_transaction` returns the structural error exactly when
`validate_structure` fails. -/
theorem addTransaction_invalidtx_iff (d : DagProcessor) (txId : Transaction → Hash)
    (now : Nat) (tx : Transaction) :
    (d.addTransaction txId now tx).1 = Except.error NyxError.InvalidTransaction ↔
      tx.validateStructure now = false := by
  by_cases hv : tx.validateStructure now = true
  · refine ⟨?_, ?_⟩
    · intro hl
      exfalso
      by_cases hp1 : d.storage.hasTransaction tx.references.1 = true
      · by_cases hp2 : d.storage.hasTransaction tx.references.2 = true
        · rcases storeTransaction_spec d.storage txId tx with ⟨_, hst⟩ | ⟨hmem, _⟩
          · unfold DagProcessor.addTransaction at hl
            simp [hv, hp1, hp2, hst] at hl
          · rw [addTransaction_ok_eq d txId now tx hv hp1 hp2 hmem] at hl
            exact absurd hl (by simp)
        · unfold DagProcessor.addTransaction at hl
          simp [hv, hp1, hp2] at hl
      · unfold DagProcessor.addTransaction at hl
        simp [hv, hp1] at hl
    · intro hc
      rw [hv] at hc
      exact Bool.noConfusion hc
  · have hf : tx.validateStructure now = false := by
      revert hv
      cases tx.validateStructure now <;> simp
    unfold DagProcessor.addTransaction
    simp [hf]

/-- `validate_structure` fails exactly on the six structural defects. -/
theorem validateStructure_false_iff (tx : Transaction) (now : Nat) :
    tx.validateStructure now = false ↔
      tx.inputs = [] ∨ tx.outputs = [] ∨ tx.references.1 = tx.references.2 ∨
      now + 7200 < tx.timestamp ∨ tx.ringSignature.ringSize < 2 ∨
      ∃ i ∈ tx.inputs, validateKeyImage i.keyImage = false := by
  unfold Transaction.validateStructure
  split_ifs with h1 h2 h3 h4
  · simp only [Bool.or_eq_true, List.isEmpty_iff] at h1
    simp only [eq_self_iff_true, true_iff]
    tauto
  · simp only [Bool.or_eq_true, List.isEmpty_iff, not_or] at h1
    simp [h1.1, h1.2, h2]
  · simp only [Bool.or_eq_true, List.isEmpty_iff, not_or] at h1
    simp only [decide_eq_true_eq] at h3
    have h3n : now + 7200 < tx.timestamp := by omega
    simp [h1.1, h1.2, h2, h3n]
  · simp only [Bool.or_eq_true, List.isEmpty_iff, not_or] at h1
    simp only [decide_eq_true_eq, not_lt] at h3
    have h3n : ¬ now + 7200 < tx.timestamp := by omega
    simp [h1.1, h1.2, h2, h3n, h4]
  · simp only [Bool.or_eq_true, List.isEmpty_iff, not_or] at h1
    simp only [decide_eq_true_eq, not_lt] at h3
    have h3n : ¬ now + 7200 < tx.timestamp := by omega
    simp only [h1.1, h1.2, h2, h3n, h4, false_or, or_false]
    rw [List.all_eq_false]
    constructor
    · rintro ⟨i, hi, hki⟩
      exact ⟨i, hi, by revert hki; cases validateKeyImage i.keyImage <;> simp⟩
    · rintro ⟨i, hi, hki⟩
      exact ⟨i, hi, by simp [hki]⟩

/-- C4: `add_transaction(tx)` returns the structural
(InvalidTransaction) error if and only if the inputs are empty, the
outputs are empty, the two parent references coincide, the timestamp is
more than 7200 seconds after the current time, the ring has fewer than
2 members, or some input key image fails the crypto validation. -/
theorem add_structural_error_iff (d : DagProcessor) (txId : Transaction → Hash)
    (now : Nat) (tx : Transaction) :
    (d.addTransaction txId now tx).1 = Except.error NyxError.InvalidTransaction ↔
      tx.inputs = [] ∨ tx.outputs = [] ∨ tx.references.1 = tx.references.2 ∨
      now + 7200 < tx.timestamp ∨ tx.ringSignature.ringSize < 2 ∨
      ∃ i ∈ tx.inputs, validateKeyImage i.keyImage = false := by
  rw [addTransaction_invalidtx_iff, validateStructure_false_iff]

/-- Shared with several claims: an erroring `add_transaction` call
leaves the engine exactly as it was. -/
theorem addTransaction_error_state (d : DagProcessor) (txId : Transaction → Hash)
    (now : Nat) (tx : Transaction) (e : NyxError)
    (herr : (d.addTransaction txId now tx).1 = Except.error e) :
    (d.addTransaction txId now tx).2 = d := by
  rcases addTransaction_spec d txId now tx with ⟨e2, heq⟩ | ⟨_, _, _, _, heq⟩
  · rw [heq]
  · rw [heq] at herr ⊢
    exact absurd herr (by simp)

/-! ## Lemmas about `addResult` and engine operation sequences -/

theorem addResult_storage_transactions (d : DagProcessor) (txId : Transaction → Hash)
    (tx : Transaction) :
    (addResult d txId tx).storage.transactions =
      upd d.storage.transactions (txId tx) (some tx) := rfl

theorem addResult_tips (d : DagProcessor) (txId : Transaction → Hash)
    (tx : Transaction) :
    (addResult d txId tx).tips =
      insert (txId tx) ((d.tips.erase tx.references.1).erase tx.references.2) := rfl

theorem addResult_children (d : DagProcessor) (txId : Transaction → Hash)
    (tx : Transaction) :
    (addResult d txId tx).children =
      upd (upd d.children tx.references.1
            (insert (txId tx) (d.children tx.references.1)))
          tx.references.2
          (insert (txId tx)
            (upd d.children tx.references.1
              (insert (txId tx) (d.children tx.references.1)) tx.references.2)) := rfl

theorem runOps_append (txId : Transaction → Hash) (ops1 ops2 : List DagOp) :
    runOps txId (ops1 ++ ops2) = ops2.foldl (stepOp txId) (runOps txId ops1) := by
  simp [runOps, List.foldl_append]

theorem foldl_stepOp_invariant {P : DagProcessor × Finset Hash → Prop}
    (txId : Transaction → Hash)
    (hstep : ∀ p op, P p → P (stepOp txId p op)) :
    ∀ (ops : List DagOp) (p : DagProcessor × Finset Hash),
      P p → P (ops.foldl (stepOp txId) p) := by
  intro ops
  induction ops with
  | nil => intro p hp; exact hp
  | cons op rest ih => intro p hp; exact ih _ (hstep p op hp)

/-- Each engine operation preserves the tips invariant. -/
theorem stepOp_preserves_tipsInv (txId : Transaction → Hash)
    (p : DagProcessor × Finset Hash) (op : DagOp)
    (hI : TipsInv p) : TipsInv (stepOp txId p op) := by
  obtain ⟨h1, h2, h3⟩ := hI
  cases op with
  | finalize h =>
      exact ⟨h1, h2, h3⟩
  | storeDirect tx =>
      rcases storeTransaction_spec p.1.storage txId tx with ⟨_, hst⟩ | ⟨_, hst⟩
      · simp only [stepOp, hst]
        exact ⟨h1, h2, h3⟩
      · simp only [stepOp, hst]
        refine ⟨h1, ?_, ?_⟩
        · intro h hmem
          simp only [upd]
          split_ifs with he
          · rfl
          · exact h2 h hmem
        · intro q h hch
          simp only [upd]
          split_ifs with he
          · rfl
          · exact h3 q h hch
  | add now tx =>
      rcases addTransaction_spec p.1 txId now tx with ⟨e, heq⟩ | ⟨hv, hp1, hp2, hfresh, heq⟩
      · simp only [stepOp, heq]
        exact ⟨h1, h2, h3⟩
      · simp only [stepOp, heq]
        have htid1 : txId tx ≠ tx.references.1 := by
          intro he
          rw [MemoryStorage.hasTransaction, ← he, hfresh] at hp1
          exact Bool.noConfusion hp1
        have htid2 : txId tx ≠ tx.references.2 := by
          intro he
          rw [MemoryStorage.hasTransaction, ← he, hfresh] at hp2
          exact Bool.noConfusion hp2
        have hchtid : p.1.children (txId tx) = ∅ := by
          rw [Finset.eq_empty_iff_forall_not_mem]
          intro x hx
          have := h3 (txId tx) x hx
          rw [hfresh] at this
          exact Bool.noConfusion this
        refine ⟨?_, ?_, ?_⟩
        · intro h
          rw [addResult_tips, addResult_children]
          by_cases hht : h = txId tx
          · subst hht
            simp only [Finset.mem_insert, true_or, true_iff, upd]
            rw [if_neg htid2, if_neg htid1]
            exact ⟨by simp, hchtid⟩
          · simp only [Finset.mem_insert, hht, false_or, Finset.mem_erase, upd]
            by_cases hh2 : h = tx.references.2
            · subst hh2
              simp only [if_pos rfl]
              constructor
              · rintro ⟨habs, -⟩
                exact absurd rfl habs
              · rintro ⟨-, habs⟩
                exact absurd habs (by simp [Finset.insert_ne_empty])
            · rw [if_neg hh2]
              by_cases hh1 : h = tx.references.1
              · subst hh1
                simp only [if_pos rfl]
                constructor
                · rintro ⟨-, habs, -⟩
                  exact absurd rfl habs
                · rintro ⟨-, habs⟩
                  exact absurd habs (by simp [Finset.insert_ne_empty])
              · rw [if_neg hh1]
                simp only [ne_eq, hh1, hh2, not_false_eq_true, true_and]
                exact h1 h
        · intro h hmem
          rw [addResult_storage_transactions]
          simp only [upd]
          rcases Finset.mem_insert.mp hmem with he | hmem2
          · simp [he]
          · split_ifs with he2
            · rfl
            · exact h2 h hmem2
        · intro q h hch
          rw [addResult_storage_transactions]
          rw [addResult_children] at hch
          simp only [upd] at hch ⊢
          by_cases hq2 : q = tx.references.2
          · subst hq2
            rw [if_neg (fun he => htid2 he.symm)]
            exact hp2
          · rw [if_neg hq2] at hch
            by_cases hq1 : q = tx.references.1
            · subst hq1
              rw [if_neg (fun he => htid1 he.symm)]
              exact hp1
            · rw [if_neg hq1] at hch
              split_ifs with he2
              · rfl
              · exact h3 q h hch

/-- Re-scoring never writes Conflicted. -/
theorem updateScoreRecursive_noConflicted (d : DagProcessor) (q : Hash)
    (hd : ∀ h, d.states h ≠ some TxState.Conflicted) :
    ∀ h, (d.updateScoreRecursive q).states h ≠ some TxState.Conflicted := by
  intro h
  unfold DagProcessor.updateScoreRecursive
  simp only []
  split
  · simp only [upd]
    split_ifs with he
    · simp
    · exact hd h
  · exact hd h

theorem addMid_states (d : DagProcessor) (txId : Transaction → Hash)
    (tx : Transaction) :
    (addMid d txId tx).states = upd d.states (txId tx) (some TxState.Pending) := rfl

/-- The state map after a successful admission, at any hash whose entry
is not Pending after the initializing write: the re-scoring leaves it
alone. -/
theorem addResult_states_of_not_pending (d : DagProcessor)
    (txId : Transaction → Hash) (tx : Transaction) (h : Hash)
    (hb : (upd d.states (txId tx) (some TxState.Pending)) h ≠ some TxState.Pending) :
    (addResult d txId tx).states h =
      (upd d.states (txId tx) (some TxState.Pending)) h := by
  have hb1 : (addMid d txId tx).states h ≠ some TxState.Pending := by
    rw [addMid_states]
    exact hb
  have e1 : ((addMid d txId tx).updateScoreRecursive tx.references.1).states h =
      (addMid d txId tx).states h :=
    updateScoreRecursive_states_of_ne _ _ _ hb1
  have hb2 : ((addMid d txId tx).updateScoreRecursive tx.references.1).states h ≠
      some TxState.Pending := by
    rw [e1]
    exact hb1
  have e2 := updateScoreRecursive_states_of_ne
    ((addMid d txId tx).updateScoreRecursive tx.references.1) tx.references.2 h hb2
  unfold addResult
  rw [e2, e1, addMid_states]

/-- A Finalized entry at a hash other than the newly admitted one
survives the admission. -/
theorem addResult_states_finalized (d : DagProcessor) (txId : Transaction → Hash)
    (tx : Transaction) (h : Hash) (hne : h ≠ txId tx)
    (hfin : d.states h = some TxState.Finalized) :
    (addResult d txId tx).states h = some TxState.Finalized := by
  have hbase : (upd d.states (txId tx) (some TxState.Pending)) h =
      some TxState.Finalized := by
    simp only [upd]
    rw [if_neg hne]
    exact hfin
  rw [addResult_states_of_not_pending d txId tx h (by rw [hbase]; simp), hbase]

/-- Each engine operation preserves "Finalized and stored". -/
theorem stepOp_preserves_finalizedStored (txId : Transaction → Hash)
    (p : DagProcessor × Finset Hash) (op : DagOp) (h : Hash)
    (hf : FinalizedStored p h) : FinalizedStored (stepOp txId p op) h := by
  obtain ⟨hfin, hstored⟩ := hf
  cases op with
  | finalize h2 =>
      refine ⟨?_, hstored⟩
      show (upd p.1.states h2 (some TxState.Finalized)) h = some TxState.Finalized
      simp only [upd]
      split_ifs with he
      · rfl
      · exact hfin
  | storeDirect tx =>
      rcases storeTransaction_spec p.1.storage txId tx with ⟨_, hst⟩ | ⟨_, hst⟩
      · simp only [stepOp, hst]
        exact ⟨hfin, hstored⟩
      · simp only [stepOp, hst]
        refine ⟨hfin, ?_⟩
        show (upd p.1.storage.transactions (txId tx) (some tx) h).isSome = true
        simp only [upd]
        split_ifs with he
        · rfl
        · exact hstored
  | add now tx =>
      rcases addTransaction_spec p.1 txId now tx with ⟨e, heq⟩ | ⟨hv, hp1, hp2, hfresh, heq⟩
      · simp only [stepOp, heq]
        exact ⟨hfin, hstored⟩
      · simp only [stepOp, heq]
        have hne : h ≠ txId tx := by
          intro he
          rw [MemoryStorage.hasTransaction, he, hfresh] at hstored
          exact Bool.noConfusion hstored
        refine ⟨addResult_states_finalized p.1 txId tx h hne hfin, ?_⟩
        show ((addResult p.1 txId tx).storage.transactions h).isSome = true
        rw [addResult_storage_transactions]
        simp only [upd]
        split_ifs with he
        · rfl
        · exact hstored

/-- No engine operation ever writes Conflicted. -/
theorem stepOp_preserves_noConflicted (txId : Transaction → Hash)
    (p : DagProcessor × Finset Hash) (op : DagOp)
    (hnc : NoConflicted p) : NoConflicted (stepOp txId p op) := by
  cases op with
  | finalize h2 =>
      intro h
      show (upd p.1.states h2 (some TxState.Finalized)) h ≠ some TxState.Conflicted
      simp only [upd]
      split_ifs with he
      · simp
      · exact hnc h
  | storeDirect tx =>
      rcases storeTransaction_spec p.1.storage txId tx with ⟨_, hst⟩ | ⟨_, hst⟩ <;>
        simp only [stepOp, hst] <;> exact hnc
  | add now tx =>
      rcases addTransaction_spec p.1 txId now tx with ⟨e, heq⟩ | ⟨_, _, _, _, heq⟩
      · simp only [stepOp, heq]
        exact hnc
      · simp only [stepOp, heq]
        intro h
        have hbase : ∀ h2, (upd p.1.states (txId tx) (some TxState.Pending)) h2 ≠
            some TxState.Conflicted := by
          intro h2
          simp only [upd]
          split_ifs with he
          · simp
          · exact hnc h2
        exact updateScoreRecursive_noConflicted _ _
          (updateScoreRecursive_noConflicted _ _ hbase) h

/-- `get_state` decodes `Finalized` exactly from a Finalized entry. -/
theorem getState_finalized_iff (d : DagProcessor) (h : Hash) :
    d.getState h = TxState.Finalized ↔ d.states h = some TxState.Finalized := by
  unfold DagProcessor.getState
  cases hd : d.states h <;> simp

/-- Re-scoring one hash does not touch the state entry of any other
hash. -/
theorem updateScoreRecursive_states_point (d : DagProcessor) (p h : Hash)
    (hne : h ≠ p) :
    (d.updateScoreRecursive p).states h = d.states h := by
  unfold DagProcessor.updateScoreRecursive
  simp only []
  split
  · simp only [upd]
    rw [if_neg hne]
  · rfl

/-- The newly admitted transaction ends the admission in state Pending
(its id differs from both parents, so the parent re-scoring cannot
touch it). -/
theorem addResult_states_new (d : DagProcessor) (txId : Transaction → Hash)
    (tx : Transaction) (h1 : txId tx ≠ tx.references.1)
    (h2 : txId tx ≠ tx.references.2) :
    (addResult d txId tx).states (txId tx) = some TxState.Pending := by
  unfold addResult
  rw [updateScoreRecursive_states_point _ _ _ h2,
    updateScoreRecursive_states_point _ _ _ h1, addMid_states]
  simp [upd]

theorem updateScoreRecursive_scores (d : DagProcessor) (h : Hash) :
    (d.updateScoreRecursive h).scores =
      upd d.scores h
        (some (1 + Finset.sum (d.children h)
          (fun c => d.getScore c * SCORE_DECAY_FACTOR))) := rfl

theorem addMid_scores (d : DagProcessor) (txId : Transaction → Hash)
    (tx : Transaction) :
    (addMid d txId tx).scores = upd d.scores (txId tx) (some 1) := rfl

theorem addMid_children (d : DagProcessor) (txId : Transaction → Hash)
    (tx : Transaction) :
    (addMid d txId tx).children =
      upd (upd d.children tx.references.1
            (insert (txId tx) (d.children tx.references.1)))
          tx.references.2
          (insert (txId tx)
            (upd d.children tx.references.1
              (insert (txId tx) (d.children tx.references.1)) tx.references.2)) := rfl

/-! ## Claim theorems -/

/-- C3: whenever `add_transaction` returns an error (structural,
invalid-parent, or the storage duplicate rejection), the DAG engine
state — scores, states, children, tips, and the storage maps — is
exactly what it was before the call. -/
theorem add_transaction_error_is_atomic (d : DagProcessor)
    (txId : Transaction → Hash) (now : Nat) (tx : Transaction) (e : NyxError)
    (herr : (d.addTransaction txId now tx).1 = Except.error e) :
    (d.addTransaction txId now tx).2 = d :=
  addTransaction_error_state d txId now tx e herr

/-- Witness for C3: a structurally invalid transaction (no inputs) is
rejected by the empty engine, which is left unchanged. -/
theorem add_transaction_error_is_atomic_witness :
    (DagProcessor.empty.addTransaction cTxId 100 badTx).1 =
      Except.error NyxError.InvalidTransaction ∧
    (DagProcessor.empty.addTransaction cTxId 100 badTx).2 = DagProcessor.empty :=
  ⟨rfl, add_transaction_error_is_atomic DagProcessor.empty cTxId 100 badTx
    NyxError.InvalidTransaction rfl⟩

/-- C6: broadcasting a message marks its id seen, so a repeated
`broadcast` of the same message returns 0, sends to no peer, and leaves
the engine unchanged; iterating the broadcast any number of further
times changes nothing, so the seen set reflects a single insertion of
the id. -/
theorem gossip_broadcast_idempotent (evict : Finset MessageId → List MessageId)
    (sendOk : PeerId → Bool) (g : GossipEngine) (msg : Message) (peers : List Peer) :
    msg.id ∈ (g.broadcast evict sendOk msg peers).2.seenMessages ∧
    (g.broadcast evict sendOk msg peers).2.broadcast evict sendOk msg peers =
      ((0, []), (g.broadcast evict sendOk msg peers).2) ∧
    ∀ n : Nat,
      (fun st : GossipEngine => (st.broadcast evict sendOk msg peers).2)^[n + 1] g =
      (g.broadcast evict sendOk msg peers).2 := by
  have hseen : msg.id ∈ (g.broadcast evict sendOk msg peers).2.seenMessages := by
    unfold GossipEngine.broadcast
    by_cases hs : msg.id ∈ g.seenMessages
    · simp [GossipEngine.hasSeen, hs]
    · simp [GossipEngine.hasSeen, hs, GossipEngine.markSeen]
  have hfix : ∀ g2 : GossipEngine, msg.id ∈ g2.seenMessages →
      g2.broadcast evict sendOk msg peers = ((0, []), g2) := by
    intro g2 hmem
    unfold GossipEngine.broadcast
    simp [GossipEngine.hasSeen, hmem]
  refine ⟨hseen, hfix _ hseen, ?_⟩
  intro n
  rw [Function.iterate_succ_apply]
  exact Function.iterate_fixed (congrArg Prod.snd (hfix _ hseen)) n

/-- C8: `store_transaction` fails with the storage duplicate error
exactly when a transaction with the same hash is present; a successful
store returns `tx.id()` and makes the transaction retrievable; `get` on
an absent hash returns the not-found error. -/
theorem storage_store_contract (txId : Transaction → Hash) (s : MemoryStorage)
    (tx : Transaction) (h : Hash) :
    (s.storeTransaction txId tx = Except.error NyxError.StorageError ↔
      (s.transactions (txId tx)).isSome = true) ∧
    (s.transactions (txId tx) = none →
      ∃ s2, s.storeTransaction txId tx = Except.ok (txId tx, s2) ∧
        s2.getTransaction (txId tx) = Except.ok tx) ∧
    (s.transactions h = none →
      s.getTransaction h = Except.error NyxError.TransactionNotFound) := by
  refine ⟨?_, ?_, ?_⟩
  · constructor
    · intro herr
      rcases storeTransaction_spec s txId tx with ⟨hmem, _⟩ | ⟨hmem, hok⟩
      · exact hmem
      · rw [hok] at herr
        exact absurd herr (by simp)
    · intro hmem
      unfold MemoryStorage.storeTransaction
      simp [hmem]
  · intro hnone
    rcases storeTransaction_spec s txId tx with ⟨hmem, _⟩ | ⟨_, hok⟩
    · rw [hnone] at hmem
      exact absurd hmem (by simp)
    · exact ⟨_, hok, by simp [MemoryStorage.getTransaction, upd]⟩
  · intro hnone
    simp [MemoryStorage.getTransaction, hnone]

/-- Witness for C8: storing a transaction into fresh storage succeeds
and makes it retrievable; a lookup of an absent hash fails. -/
theorem storage_store_contract_witness :
    MemoryStorage.new.transactions (cTxId (mkTx 3 1 2)) = none ∧
    (∃ s2, MemoryStorage.new.storeTransaction cTxId (mkTx 3 1 2) =
        Except.ok (cTxId (mkTx 3 1 2), s2) ∧
      s2.getTransaction (cTxId (mkTx 3 1 2)) = Except.ok (mkTx 3 1 2)) ∧
    MemoryStorage.new.getTransaction 7 = Except.error NyxError.TransactionNotFound :=
  ⟨rfl,
   (storage_store_contract cTxId MemoryStorage.new (mkTx 3 1 2) 7).2.1 rfl,
   (storage_store_contract cTxId MemoryStorage.new (mkTx 3 1 2) 7).2.2 rfl⟩

/-- Whatever the draw, a single-tip selection lands inside the tip
list. -/
theorem tipAt_mem (tips : List Hash) (hne : tips ≠ []) (i : Nat) :
    tipAt tips i ∈ tips := by
  have hpos : 0 < tips.length := List.length_pos.2 hne
  unfold tipAt
  split_ifs with h1
  · rw [List.getD_eq_getElem _ _ hpos]
    exact List.getElem_mem hpos
  · have hlt : min i (tips.length - 1) < tips.length := by omega
    rw [List.getD_eq_getElem _ _ hlt]
    exact List.getElem_mem hlt

/-- The retry loop also always returns an element of the tip list. -/
theorem secondTipLoop_mem (tips : List Hash) (draws : Nat → Nat) (t1 : Hash)
    (hne : tips ≠ []) :
    ∀ (fuel k : Nat) (t2 : Hash), t2 ∈ tips →
      secondTipLoop tips draws t1 fuel k t2 ∈ tips := by
  intro fuel
  induction fuel with
  | zero =>
      intro k t2 h2
      simpa [secondTipLoop] using h2
  | succ f ih =>
      intro k t2 h2
      rw [secondTipLoop]
      split_ifs with h
      · exact ih (k + 1) _ (tipAt_mem tips hne _)
      · exact h2

/-- A duplicate-free list of length at least two has an element
different from any given one. -/
theorem exists_mem_ne_of_nodup (tips : List Hash) (hnd : tips.Nodup)
    (h2 : 2 ≤ tips.length) (t : Hash) : ∃ x ∈ tips, x ≠ t := by
  match tips, hnd, h2 with
  | a :: b :: r, hnd, _ =>
    have hab : a ≠ b := by
      have := (List.nodup_cons.mp hnd).1
      intro h
      exact this (h ▸ List.mem_cons_self b r)
    by_cases hat : a = t
    · exact ⟨b, List.mem_cons_of_mem a (List.mem_cons_self b r),
        fun h => hab (by rw [hat, h])⟩
    · exact ⟨a, List.mem_cons_self a (b :: r), hat⟩

/-- With at least two distinct tips, `select_tips` returns two distinct
members of the tip list, whatever the draws do. -/
theorem selectTips_two_distinct (draws : Nat → Nat) (tips : List Hash)
    (hnd : tips.Nodup) (h2 : 2 ≤ tips.length) :
    ∃ a b, selectTips draws tips = Except.ok (a, b) ∧
      a ∈ tips ∧ b ∈ tips ∧ a ≠ b := by
  have hne : tips ≠ [] := by
    intro h
    rw [h] at h2
    simp at h2
  have hemp : ¬ (tips.isEmpty = true) := by simp [List.isEmpty_iff, hne]
  have hlen1 : ¬ (tips.length = 1) := by omega
  unfold selectTips
  rw [if_neg hemp, if_neg hlen1]
  simp only []
  set t1 := tipAt tips (draws 0) with ht1
  set t2 := secondTipLoop tips draws t1 10 2 (tipAt tips (draws 1)) with ht2
  have h1mem : t1 ∈ tips := tipAt_mem tips hne (draws 0)
  have h2mem : t2 ∈ tips :=
    secondTipLoop_mem tips draws t1 hne 10 2 _ (tipAt_mem tips hne (draws 1))
  by_cases heq : t2 = t1
  · rw [if_pos heq]
    cases hf : tips.find? (fun t => t ≠ t1) with
    | none =>
        exfalso
        obtain ⟨x, hx, hxne⟩ := exists_mem_ne_of_nodup tips hnd h2 t1
        have hnone := List.find?_eq_none.mp hf x hx
        simp only [decide_eq_true_eq, not_not] at hnone
        exact hxne hnone
    | some t =>
        refine ⟨t1, t, rfl, h1mem, List.mem_of_find?_eq_some hf, ?_⟩
        have hp := List.find?_some hf
        simp only [decide_eq_true_eq] at hp
        exact fun hcon => hp hcon.symm
  · rw [if_neg heq]
    exact ⟨t1, t2, rfl, h1mem, h2mem, fun hc => heq hc.symm⟩

/-- C5: `select_tips` fails exactly on an empty tip set; a single tip
is returned twice; with two or more (distinct) tips it returns two
distinct tips for every outcome of the random draws. -/
theorem select_tips_contract (draws : Nat → Nat) (tips : List Hash)
    (hnd : tips.Nodup) :
    (selectTips draws tips = Except.error NyxError.TipSelectionError ↔ tips = []) ∧
    (∀ t, tips = [t] → selectTips draws tips = Except.ok (t, t)) ∧
    (2 ≤ tips.length → ∃ a b, selectTips draws tips = Except.ok (a, b) ∧
      a ∈ tips ∧ b ∈ tips ∧ a ≠ b) := by
  have hone : ∀ t, tips = [t] → selectTips draws tips = Except.ok (t, t) := by
    intro t h
    subst h
    rfl
  refine ⟨⟨?_, ?_⟩, hone, selectTips_two_distinct draws tips hnd⟩
  · intro herr
    by_contra hne
    rcases Nat.lt_or_ge tips.length 2 with hlt | hge
    · have h1 : tips.length = 1 := by
        have : tips.length ≠ 0 := by simp [List.length_eq_zero, hne]
        omega
      obtain ⟨t, ht⟩ := List.length_eq_one.mp h1
      rw [hone t ht] at herr
      exact Except.noConfusion herr
    · obtain ⟨a, b, hok, _⟩ := selectTips_two_distinct draws tips hnd hge
      rw [hok] at herr
      exact Except.noConfusion herr
  · intro h
    subst h
    rfl

/-! Helper evaluation lemmas for the score-staleness scenario
(`opsScore`): the three admissions reduced to `addResult`, and the
stored scores of the relevant nodes after each stage. -/

theorem sc3_eq : sc3.1 = addResult sc2.1 cTxId aTx := by
  have hok : sc2.1.addTransaction cTxId 100 aTx =
      (Except.ok (cTxId aTx), addResult sc2.1 cTxId aTx) :=
    addTransaction_ok_eq sc2.1 cTxId 100 aTx (by decide) (by decide) (by decide)
      (by decide)
  show (stepOp cTxId sc2 (DagOp.add 100 aTx)).1 = _
  simp only [stepOp, hok]

theorem sc4_eq : sc4.1 = addResult sc3.1 cTxId bTx := by
  have hok : sc3.1.addTransaction cTxId 100 bTx =
      (Except.ok (cTxId bTx), addResult sc3.1 cTxId bTx) :=
    addTransaction_ok_eq sc3.1 cTxId 100 bTx (by decide) (by decide) (by decide)
      (by decide)
  show (stepOp cTxId sc3 (DagOp.add 100 bTx)).1 = _
  simp only [stepOp, hok]

theorem sc5_eq : sc5.1 = addResult sc4.1 cTxId cTx := by
  have hok : sc4.1.addTransaction cTxId 100 cTx =
      (Except.ok (cTxId cTx), addResult sc4.1 cTxId cTx) :=
    addTransaction_ok_eq sc4.1 cTxId 100 cTx (by decide) (by decide) (by decide)
      (by decide)
  show (stepOp cTxId sc4 (DagOp.add 100 cTx)).1 = _
  simp only [stepOp, hok]

theorem sc3_scores_3 : sc3.1.scores 3 = some 1 := by
  rw [sc3_eq]
  simp [addResult, updateScoreRecursive_scores, addMid_scores, upd, aTx, mkTx, cTxId]

theorem sc4_scores_3 : sc4.1.scores 3 = some (19 / 10) := by
  have hc33 : sc3.1.children 3 = ∅ := by decide
  rw [sc4_eq]
  simp only [addResult, updateScoreRecursive_scores, updateScoreRecursive_children,
    addMid_scores, addMid_children, DagProcessor.getScore, upd, bTx, mkTx, cTxId]
  norm_num [hc33, sc3_scores_3, SCORE_DECAY_FACTOR]

theorem sc5_scores_3 : sc5.1.scores 3 = some (19 / 10) := by
  rw [sc5_eq]
  simp only [addResult, updateScoreRecursive_scores, updateScoreRecursive_children,
    addMid_scores, addMid_children, DagProcessor.getScore, upd, cTx, mkTx, cTxId]
  norm_num [sc4_scores_3]

theorem sc5_scores_4 : sc5.1.scores 4 = some (19 / 10) := by
  have hc44 : sc4.1.children 4 = ∅ := by decide
  rw [sc5_eq]
  simp only [addResult, updateScoreRecursive_scores, updateScoreRecursive_children,
    addMid_scores, addMid_children, DagProcessor.getScore, upd, cTx, mkTx, cTxId]
  norm_num [hc44, SCORE_DECAY_FACTOR]

/-- C1: evaluation of the engine on a concrete five-operation run
falsifying the score invariant.  After admitting A(1,2), B(3,2) and
C(4,2), node 3 = A is admitted, its only child is 4 = B with stored
score 1.9, but the stored score of node 3 is 1.9, not the
1 + 0.9 · 1.9 = 2.71 the defining equation requires: admitting C
re-scored only C's direct parents 4 and 2, and the change to 4's score
was never propagated to 4's parent 3 — `update_score_recursive`
(contrary to its name and doc comment) does not recurse along ancestor
chains. -/
theorem score_equation_stale_at_admitted_node :
    3 ∈ (runOps cTxId opsScore).2 ∧
    (runOps cTxId opsScore).1.children 3 = {4} ∧
    (runOps cTxId opsScore).1.getScore 3 = 19 / 10 ∧
    (runOps cTxId opsScore).1.getScore 4 = 19 / 10 ∧
    (runOps cTxId opsScore).1.getScore 3 ≠
      1 + Finset.sum ((runOps cTxId opsScore).1.children 3)
        (fun c => (runOps cTxId opsScore).1.getScore c * SCORE_DECAY_FACTOR) := by
  have hrun : runOps cTxId opsScore = sc5 := rfl
  have hch : (runOps cTxId opsScore).1.children 3 = {4} := by decide
  have hg3 : (runOps cTxId opsScore).1.getScore 3 = 19 / 10 := by
    rw [hrun]
    unfold DagProcessor.getScore
    rw [sc5_scores_3]
    rfl
  have hg4 : (runOps cTxId opsScore).1.getScore 4 = 19 / 10 := by
    rw [hrun]
    unfold DagProcessor.getScore
    rw [sc5_scores_4]
    rfl
  refine ⟨by decide, hch, hg3, hg4, ?_⟩
  rw [hch, hg3, Finset.sum_singleton, hg4]
  norm_num [SCORE_DECAY_FACTOR]

/-- Counterexample to C2: a transaction stored directly through
Storage (the genesis bootstrap path) is present in Storage with an
empty children set, yet it is not in the tip set — so the tip set is
not the set of stored hashes with no children. -/
theorem stored_genesis_not_a_tip :
    (runOps cTxId [DagOp.storeDirect gTx1]).1.storage.hasTransaction 1 = true ∧
    (runOps cTxId [DagOp.storeDirect gTx1]).1.children 1 = ∅ ∧
    1 ∉ (runOps cTxId [DagOp.storeDirect gTx1]).1.tips := by
  refine ⟨rfl, rfl, by decide⟩

/-- C2 (amended): after every sequence of engine operations, the tip
set is exactly the set of hashes admitted through `add_transaction`
whose children set is empty; in particular every tip is present in
Storage with no children, but a transaction stored directly via
Storage is not a tip. -/
theorem tips_characterization (txId : Transaction → Hash) (ops : List DagOp)
    (h : Hash) :
    (h ∈ (runOps txId ops).1.tips ↔
      (h ∈ (runOps txId ops).2 ∧ (runOps txId ops).1.children h = ∅)) ∧
    (h ∈ (runOps txId ops).1.tips →
      (runOps txId ops).1.storage.hasTransaction h = true) := by
  have hinit : TipsInv (DagProcessor.empty, ∅) := by
    refine ⟨?_, ?_, ?_⟩
    · intro h2
      simp [DagProcessor.empty]
    · intro h2 hm
      simp at hm
    · intro q h2 hm
      simp [DagProcessor.empty] at hm
  have hinv : TipsInv (runOps txId ops) :=
    foldl_stepOp_invariant txId (stepOp_preserves_tipsInv txId) ops _ hinit
  refine ⟨hinv.1 h, fun htip => ?_⟩
  exact hinv.2.1 h ((hinv.1 h).mp htip).1

/-- Counterexample to C9: finalize hash 3 while nothing is stored, then
store the two genesis transactions and admit the transaction whose id
is 3 — `get_state(3)` goes from Finalized back to Pending, so Finalized
is not terminal for a hash finalized before it was stored. -/
theorem finalize_then_admit_reverts_to_pending :
    (runOps cTxId opsFinPre).1.getState 3 = TxState.Finalized ∧
    (runOps cTxId opsFin).1.getState 3 = TxState.Pending := by
  refine ⟨by decide, ?_⟩
  have heq : runOps cTxId opsFin = tf4 := rfl
  rw [heq]
  have hok : tf3.1.addTransaction cTxId 100 aTx =
      (Except.ok (cTxId aTx), addResult tf3.1 cTxId aTx) :=
    addTransaction_ok_eq tf3.1 cTxId 100 aTx (by decide) (by decide) (by decide)
      (by decide)
  have h4 : tf4.1 = addResult tf3.1 cTxId aTx := by
    show (stepOp cTxId tf3 (DagOp.add 100 aTx)).1 = _
    simp only [stepOp, hok]
  rw [h4]
  have hst : (addResult tf3.1 cTxId aTx).states 3 = some TxState.Pending :=
    addResult_states_new tf3.1 cTxId aTx (by decide) (by decide)
  unfold DagProcessor.getState
  rw [hst]
  rfl

/-- C9 (amended): once `get_state(h)` is Finalized for a hash that is
present in Storage, it stays Finalized under every further sequence of
engine operations; and no reachable state ever reports Conflicted
(conflict detection is not wired), so Conflicted is vacuously terminal.
A hash finalized before being stored can revert to Pending when the
transaction with that id is later admitted — see the counterexample. -/
theorem finalized_terminal_once_stored (txId : Transaction → Hash)
    (ops1 ops2 : List DagOp) (h : Hash) :
    ((runOps txId ops1).1.getState h = TxState.Finalized →
      (runOps txId ops1).1.storage.hasTransaction h = true →
      (runOps txId (ops1 ++ ops2)).1.getState h = TxState.Finalized) ∧
    (runOps txId ops1).1.getState h ≠ TxState.Conflicted := by
  constructor
  · intro hfin hstored
    have hfs : FinalizedStored (runOps txId ops1) h :=
      ⟨(getState_finalized_iff _ h).mp hfin, hstored⟩
    have hpres : FinalizedStored (ops2.foldl (stepOp txId) (runOps txId ops1)) h :=
      foldl_stepOp_invariant txId
        (fun p op hp => stepOp_preserves_finalizedStored txId p op h hp) ops2 _ hfs
    rw [runOps_append]
    exact (getState_finalized_iff _ h).mpr hpres.1
  · have hinit : NoConflicted (DagProcessor.empty, ∅) := by
      intro h2
      simp [DagProcessor.empty]
    have hnc : NoConflicted (runOps txId ops1) :=
      foldl_stepOp_invariant txId (stepOp_preserves_noConflicted txId) ops1 _ hinit
    intro hcon
    have hsome : (runOps txId ops1).1.states h = some TxState.Conflicted := by
      revert hcon
      unfold DagProcessor.getState
      cases hd : (runOps txId ops1).1.states h with
      | none => simp
      | some s => simp
    exact hnc h hsome

/-- Witness for C9 (amended): a stored-then-finalized hash stays
Finalized after a further operation. -/
theorem finalized_terminal_once_stored_witness :
    ((runOps cTxId [DagOp.storeDirect gTx1, DagOp.finalize 1]).1.getState 1 =
        TxState.Finalized ∧
      (runOps cTxId [DagOp.storeDirect gTx1, DagOp.finalize 1]).1.storage.hasTransaction
        1 = true) ∧
    (runOps cTxId ([DagOp.storeDirect gTx1, DagOp.finalize 1] ++
        [DagOp.finalize 9])).1.getState 1 = TxState.Finalized :=
  ⟨⟨by decide, by decide⟩,
   (finalized_terminal_once_stored cTxId [DagOp.storeDirect gTx1, DagOp.finalize 1]
      [DagOp.finalize 9] 1).1 (by decide) (by decide)⟩

/-- Witness for C5: three distinct tips, identity draws. -/
theorem select_tips_contract_witness :
    ([7, 8, 9] : List Hash).Nodup ∧
    (∃ a b, selectTips (fun k => k) [7, 8, 9] = Except.ok (a, b) ∧
      a ∈ ([7, 8, 9] : List Hash) ∧ b ∈ ([7, 8, 9] : List Hash) ∧ a ≠ b) :=
  ⟨by decide,
   (select_tips_contract (fun k => k) [7, 8, 9] (by decide)).2.2 (by decide)⟩

/-- C10: `finalize_transaction` succeeds for every hash — stored or
not, in any current state — setting the state entry to Finalized and
the confirmed flag in storage to true, while storing nothing. -/
theorem finalize_unconditional (d : DagProcessor) (h : Hash) :
    (d.finalizeTransaction h).getState h = TxState.Finalized ∧
    (d.finalizeTransaction h).states h = some TxState.Finalized ∧
    (d.finalizeTransaction h).storage.isConfirmed h = true ∧
    (d.finalizeTransaction h).storage.transactions = d.storage.transactions := by
  refine ⟨?_, ?_, ?_, rfl⟩ <;>
    simp [DagProcessor.finalizeTransaction, DagProcessor.getState,
      MemoryStorage.markConfirmed, MemoryStorage.isConfirmed, upd]

/-- Counterexample to C7: with a mempool of capacity 1, a duplicate
insertion of the very transaction already present fails with the
mempool-full error instead of returning the same hash — the capacity
check runs before the duplicate check. -/
theorem mempool_duplicate_at_capacity_fails :
    ((Mempool.new 1).addTransaction cTxId (mkTx 3 1 2)).1 = Except.ok 3 ∧
    ((Mempool.new 1).addTransaction cTxId (mkTx 3 1 2)).2.size = 1 ∧
    (((Mempool.new 1).addTransaction cTxId (mkTx 3 1 2)).2.addTransaction cTxId
        (mkTx 3 1 2)).1 = Except.error NodeError.MempoolError := by
  refine ⟨rfl, rfl, rfl⟩

/-- C7 (amended): duplicate insertion is idempotent — same hash, state
unchanged — whenever the mempool size is strictly below capacity; in
particular with capacity at least 2, `add(tx); add(tx)` from empty ends
with size 1 and both calls return the same hash.  (At capacity even a
duplicate add fails, see the counterexample.) -/
theorem mempool_duplicate_idempotent (txId : Transaction → Hash) (tx : Transaction) :
    (∀ m : Mempool, m.containsKey (txId tx) = true → m.size < m.maxSize →
      m.addTransaction txId tx = (Except.ok (txId tx), m)) ∧
    (∀ maxSize : Nat, 2 ≤ maxSize →
      ((Mempool.new maxSize).addTransaction txId tx).1 = Except.ok (txId tx) ∧
      (((Mempool.new maxSize).addTransaction txId tx).2.addTransaction txId tx).1 =
        Except.ok (txId tx) ∧
      (((Mempool.new maxSize).addTransaction txId tx).2.addTransaction txId tx).2.size
        = 1) := by
  constructor
  · intro m hmem hroom
    unfold Mempool.addTransaction
    simp [Nat.not_le_of_lt hroom, hmem]
  · intro maxSize hcap
    have h0 : (Mempool.new maxSize).addTransaction txId tx =
        (Except.ok (txId tx),
          { transactions := [(txId tx, tx)], maxSize := maxSize }) := by
      unfold Mempool.addTransaction
      simp [Mempool.new, Mempool.size, Mempool.containsKey,
        Nat.not_le_of_lt (by omega : 0 < maxSize)]
    rw [h0]
    have h1 : ({ transactions := [(txId tx, tx)], maxSize := maxSize } :
        Mempool).addTransaction txId tx =
        (Except.ok (txId tx),
          { transactions := [(txId tx, tx)], maxSize := maxSize }) := by
      unfold Mempool.addTransaction
      simp [Mempool.size, Mempool.containsKey,
        Nat.not_le_of_lt (by omega : 1 < maxSize)]
    rw [h1]
    exact ⟨rfl, rfl, rfl⟩

/-- Witness for C7 (amended): capacity 2, duplicate insertion after one
add returns the same hash and keeps size 1. -/
theorem mempool_duplicate_idempotent_witness :
    (((Mempool.new 2).addTransaction cTxId (mkTx 3 1 2)).2.containsKey 3 = true ∧
      ((Mempool.new 2).addTransaction cTxId (mkTx 3 1 2)).2.size <
        ((Mempool.new 2).addTransaction cTxId (mkTx 3 1 2)).2.maxSize) ∧
    ((Mempool.new 2).addTransaction cTxId (mkTx 3 1 2)).1 = Except.ok 3 ∧
    (((Mempool.new 2).addTransaction cTxId (mkTx 3 1 2)).2.addTransaction cTxId
        (mkTx 3 1 2)).1 = Except.ok 3 ∧
    (((Mempool.new 2).addTransaction cTxId (mkTx 3 1 2)).2.addTransaction cTxId
        (mkTx 3 1 2)).2.size = 1 :=
  ⟨⟨rfl, by decide⟩, (mempool_duplicate_idempotent cTxId (mkTx 3 1 2)).2 2 (by decide)⟩

end Nyx
